import Mathlib

/-!
Verification of the rust-snappy core: the masked CRC32C checksum module
(src/crc32.rs, embedded faithfully below) and the block codec
(varint / encoder / decoder), which is modelled from the specification since
its source is not part of the repository snapshot.

Byte buffers are lists of 8-bit values; 32-bit machine arithmetic is
represented on Nat with explicit reductions modulo 2 ^ 32.
-/

/-- Bytes are 8-bit values. -/
abbrev Byte := Fin 256

/-- Coerce a natural number to a byte by taking its low 8 bits. -/
def mkByte (x : Nat) : Byte := ⟨x % 256, Nat.mod_lt _ (by omega)⟩

/-- Flip bit k (k interpreted modulo 8) of a byte: the mutated byte differs
from the original in exactly that one bit. -/
def flipBit (x : Byte) (k : Nat) : Byte :=
  ⟨x.val ^^^ 2 ^ (k % 8), by
    have h1 : x.val < 2 ^ 8 := x.isLt
    have h2 : 2 ^ (k % 8) < 2 ^ 8 := by
      have : k % 8 < 8 := Nat.mod_lt _ (by omega)
      exact Nat.pow_lt_pow_right (by omega) this
    have h3 := Nat.xor_lt_two_pow h1 h2
    omega⟩

/-! ## CRC32C tables

The repository imports TABLE and TABLE16 from crc32_table.rs, which is not
under src/; the tables are modelled from the spec (section 4.2). -/

/-- Modelled from the spec: one bitwise step of the reflected CRC32C division
(Castagnoli polynomial, reflected form 0x82F63B78), used to build the missing
crc32_table.rs tables. -/
def crc8 (c : Nat) : Nat :=
  if c % 2 = 1 then (c >>> 1) ^^^ 0x82F63B78 else c >>> 1

/-- Modelled from the spec: TABLE from the missing crc32_table.rs, the single
256-entry table; entry i is eight bitwise division steps applied to i. -/
def TABLE (i : Nat) : Nat := crc8^[8] i

/-- Modelled from the spec: TABLE16 from the missing crc32_table.rs, the
sixteen 256-entry tables used by slicing-by-16; table k+1 extends table k by
one further whole-byte step of the running CRC. -/
def TABLE16 : Nat → Nat → Nat
  | 0, i => TABLE i
  | k + 1, i => TABLE (TABLE16 k i % 256) ^^^ (TABLE16 k i >>> 8)

/-- Modelled from the spec: read_u32_le from the crate's bytes module (not
under src/), the little-endian 32-bit read of four bytes. -/
def read_u32_le (b0 b1 b2 b3 : Byte) : Nat :=
  b0.val + b1.val * 2 ^ 8 + b2.val * 2 ^ 16 + b3.val * 2 ^ 24

/-- One step of the tail loop of crc32c_slice16 (crc32.rs line 64):
crc = TABLE[((crc as u8) ^ b) as usize] ^ (crc >> 8). -/
def crcByteStep (crc : Nat) (b : Byte) : Nat :=
  TABLE ((crc % 256) ^^^ b.val) ^^^ (crc >>> 8)

/-- Body of the slicing-by-16 main loop of crc32c_slice16 (crc32.rs
lines 44-60). -/
def crcBlockStep (crc : Nat)
    (b0 b1 b2 b3 b4 b5 b6 b7 b8 b9 b10 b11 b12 b13 b14 b15 : Byte) : Nat :=
  let x := crc ^^^ read_u32_le b0 b1 b2 b3
  TABLE16 0 b15.val ^^^ TABLE16 1 b14.val ^^^ TABLE16 2 b13.val
    ^^^ TABLE16 3 b12.val ^^^ TABLE16 4 b11.val ^^^ TABLE16 5 b10.val
    ^^^ TABLE16 6 b9.val ^^^ TABLE16 7 b8.val ^^^ TABLE16 8 b7.val
    ^^^ TABLE16 9 b6.val ^^^ TABLE16 10 b5.val ^^^ TABLE16 11 b4.val
    ^^^ TABLE16 12 ((x >>> 24) % 256) ^^^ TABLE16 13 ((x >>> 16) % 256)
    ^^^ TABLE16 14 ((x >>> 8) % 256) ^^^ TABLE16 15 (x % 256)

/-- Loop structure of crc32c_slice16 (crc32.rs lines 43-65): process blocks
of 16 bytes while at least 16 bytes remain, then the remaining tail one byte
at a time. -/
def crcLoop : Nat → List Byte → Nat
  | crc, b0 :: b1 :: b2 :: b3 :: b4 :: b5 :: b6 :: b7 :: b8 :: b9 :: b10
      :: b11 :: b12 :: b13 :: b14 :: b15 :: rest =>
      crcLoop
        (crcBlockStep crc b0 b1 b2 b3 b4 b5 b6 b7 b8 b9 b10 b11 b12 b13 b14 b15)
        rest
  | crc, buf => List.foldl crcByteStep crc buf

/-- crc32c_slice16 from crc32.rs lines 41-67: the running value starts at !0,
and the result is its bitwise complement (!crc on u32 is xor with
0xFFFFFFFF). -/
def crc32c_slice16 (buf : List Byte) : Nat :=
  crcLoop 0xFFFFFFFF buf ^^^ 0xFFFFFFFF

/-- CheckSummer struct from crc32.rs lines 12-15. -/
structure CheckSummer where
  sse42 : Bool
deriving DecidableEq

/-- CheckSummer::new from crc32.rs lines 20-22. -/
def CheckSummer.new : CheckSummer := { sse42 := false }

/-- CheckSummer::crc32c from crc32.rs lines 34-36: unconditionally dispatches
to the portable crc32c_slice16. -/
def CheckSummer.crc32c (_ : CheckSummer) (buf : List Byte) : Nat :=
  crc32c_slice16 buf

/-- CheckSummer::crc32c_masked from crc32.rs lines 28-31:
(sum.wrapping_shr(15) | sum.wrapping_shl(17)).wrapping_add(0xA282EAD8). -/
def CheckSummer.crc32c_masked (s : CheckSummer) (buf : List Byte) : Nat :=
  let sum := s.crc32c buf
  (((sum >>> 15) ||| ((sum <<< 17) % 2 ^ 32)) + 0xA282EAD8) % 2 ^ 32

/-! ## Specification-side checksum definitions

These follow the words of the spec and are compared against the code-derived
definitions above. -/

/-- Rotation of a 32-bit value right by n bits, as in the spec masking
invariant (section 3): the low n bits wrap around to the top. -/
def rotr32 (x n : Nat) : Nat := (x >>> n) ||| ((x % 2 ^ n) <<< (32 - n))

/-- Reference byte-at-a-time CRC32C step, in the words of spec section 4.2:
crc = table[(crc_low_byte) XOR byte] XOR (crc >> 8). -/
def refByteStep (crc : Nat) (b : Byte) : Nat :=
  TABLE ((crc % 256) ^^^ b.val) ^^^ (crc >>> 8)

/-- Plain byte-at-a-time reference CRC32C (spec section 4.2): initial value
all-ones, every byte processed by refByteStep, final complement. -/
def crc32c_ref (buf : List Byte) : Nat :=
  List.foldl refByteStep 0xFFFFFFFF buf ^^^ 0xFFFFFFFF

/-- Whole-byte step of the CRC state map: consume the low byte of the running
value through the single table and shift the rest down. TABLE16 (k+1) is the
pointwise image of TABLE16 k under this map, and the byte-at-a-time step is
this map applied to crc xor byte. -/
def crcD (x : Nat) : Nat := TABLE (x % 256) ^^^ (x >>> 8)

/-! ## Block codec model

The varint codec, the encoder and the decoder of the crate are not part of
the repository snapshot under src/ (only their tests are); the whole block
codec below is modelled from the spec (sections 3, 4.1, 4.3, 4.4 and 7). -/

namespace Snappy

/-- Modelled from the spec (section 7): the error taxonomy of the missing
error module; structural corruption versus a well-formed but oversized
length declaration. -/
inductive Error where
  | corrupt : Error
  | tooBig (given max : Nat) : Error
deriving DecidableEq

/-- Modelled from the spec (section 4.1): varint encoding from the missing
varint module; emit base-128 groups low to high, the high bit of each byte
flagging a further group. At most 5 groups are needed for the values the
format accepts (at most 2^32 - 1), which the fuel reflects. -/
def writeVarintGo : Nat → Nat → List Byte
  | 0, _ => []
  | fuel + 1, n =>
      if n < 128 then [mkByte n]
      else mkByte (n % 128 + 128) :: writeVarintGo fuel (n / 128)

/-- Varint encoding of a length below 2^35 (in particular of any accepted
length). -/
def writeVarint (n : Nat) : List Byte := writeVarintGo 5 n

/-- Modelled from the spec (section 4.1): varint decoding from the missing
varint module; read groups until a byte with the high bit clear, failing
with Corrupt when the stream ends first or when more than 5 groups would be
consumed without termination. Returns the value and the unread rest. -/
def readVarintGo : List Byte → Nat → Nat → Nat → Except Error (Nat × List Byte)
  | [], _, _, _ => .error .corrupt
  | _ :: _, 0, _, _ => .error .corrupt
  | b :: rest, g + 1, mult, acc =>
      if b.val < 128 then .ok (acc + b.val * mult, rest)
      else readVarintGo rest g (mult * 128) (acc + (b.val - 128) * mult)

/-- Varint decoding entry point: up to 5 groups, group weight starting at 1,
accumulator starting at 0. -/
def readVarint (buf : List Byte) : Except Error (Nat × List Byte) :=
  readVarintGo buf 5 1 0

/-- Modelled from the spec (section 4.4): decompress_len parses only the
leading varint and applies the 2^32 - 1 ceiling, failing with TooBig beyond
it. -/
def decompress_len (buf : List Byte) : Except Error Nat :=
  match readVarint buf with
  | .error e => .error e
  | .ok (v, _) =>
      if v > 0xFFFFFFFF then .error (.tooBig v 0xFFFFFFFF) else .ok v

/-- Modelled from the spec (section 3): a tagged element is either a literal
run of bytes or a copy described by an offset back into the already produced
output and a length. -/
inductive Elem where
  | lit (bs : List Byte) : Elem
  | copy (off len : Nat) : Elem

/-- Little-endian byte string of x, k bytes wide. -/
def leBytes : Nat → Nat → List Byte
  | 0, _ => []
  | k + 1, x => mkByte x :: leBytes k (x / 256)

/-- Value of a little-endian byte string. -/
def natFromLe : List Byte → Nat
  | [] => 0
  | b :: t => b.val + 256 * natFromLe t

/-- Modelled from the spec (sections 3 and 4.3): wire form of one tagged
element in the Snappy tag-byte layout. A literal run uses tag low bits 00,
with length - 1 in the upper tag bits for runs up to 60 bytes and otherwise
in 1 to 4 trailing little-endian bytes (upper tag bits 60 to 63); a copy
uses tag low bits 10 with two offset bytes, or 11 with four offset bytes,
and carries length - 1 in the upper tag bits (lengths of at most 64). -/
def emitElem : Elem → List Byte
  | .lit bs =>
      (if bs.length ≤ 60 then [mkByte ((bs.length - 1) * 4)]
       else if bs.length ≤ 256 then mkByte 240 :: leBytes 1 (bs.length - 1)
       else if bs.length ≤ 65536 then mkByte 244 :: leBytes 2 (bs.length - 1)
       else if bs.length ≤ 16777216 then mkByte 248 :: leBytes 3 (bs.length - 1)
       else mkByte 252 :: leBytes 4 (bs.length - 1)) ++ bs
  | .copy off len =>
      if off < 65536 then mkByte ((len - 1) * 4 + 2) :: leBytes 2 off
      else mkByte ((len - 1) * 4 + 3) :: leBytes 4 off

/-- Wire form of a whole element sequence. -/
def serialize (es : List Elem) : List Byte := (es.map emitElem).flatten

/-- Modelled from the spec (section 4.4): a copy is executed byte by byte in
increasing index order, each byte read from the output bytes already
appended, so self-overlapping copies replicate their pattern. -/
def copyBack : List Byte → Nat → Nat → List Byte
  | out, _, 0 => out
  | out, off, len + 1 => copyBack (out ++ [out.getD (out.length - off) 0]) off len

/-- Byte value of b at index i, 0 beyond the end. -/
def byteAt (b : List Byte) (i : Nat) : Nat := (b.getD i 0).val

/-- Modelled from the spec (section 4.4): the decoder loop over tagged
elements of the missing decompress module. n is the declared output length.
The first argument is fuel; decompress supplies input length + 1, which a
loop consuming at least one byte per iteration can never exhaust. Literal
lengths are validated against the remaining input and the declared output
length; copy offsets must be nonzero and at most the bytes already written;
every violation is Corrupt; at the end the output length must equal n. -/
def decodeElems : Nat → Nat → List Byte → List Byte → Except Error (List Byte)
  | _, 0, _, _ => .error .corrupt
  | n, fuel + 1, inp, out =>
      match inp with
      | [] => if out.length = n then .ok out else .error .corrupt
      | tag :: inp1 =>
          if tag.val % 4 = 0 then
            let h := tag.val / 4
            let extra := if h < 60 then 0 else h - 59
            if extra ≤ inp1.length then
              let l := if h < 60 then h + 1 else natFromLe (inp1.take extra) + 1
              let rest := inp1.drop extra
              if l ≤ rest.length ∧ out.length + l ≤ n then
                decodeElems n fuel (rest.drop l) (out ++ rest.take l)
              else .error .corrupt
            else .error .corrupt
          else if tag.val % 4 = 1 then
            if 1 ≤ inp1.length then
              let len := tag.val / 4 % 8 + 4
              let off := tag.val / 32 * 256 + byteAt inp1 0
              if 1 ≤ off ∧ off ≤ out.length ∧ out.length + len ≤ n then
                decodeElems n fuel (inp1.drop 1) (copyBack out off len)
              else .error .corrupt
            else .error .corrupt
          else if tag.val % 4 = 2 then
            if 2 ≤ inp1.length then
              let len := tag.val / 4 + 1
              let off := natFromLe (inp1.take 2)
              if 1 ≤ off ∧ off ≤ out.length ∧ out.length + len ≤ n then
                decodeElems n fuel (inp1.drop 2) (copyBack out off len)
              else .error .corrupt
            else .error .corrupt
          else
            if 4 ≤ inp1.length then
              let len := tag.val / 4 + 1
              let off := natFromLe (inp1.take 4)
              if 1 ≤ off ∧ off ≤ out.length ∧ out.length + len ≤ n then
                decodeElems n fuel (inp1.drop 4) (copyBack out off len)
              else .error .corrupt
            else .error .corrupt

/-- Modelled from the spec (section 4.4): full decompression from the
missing decompress module. Parse the length varint (Corrupt and TooBig
exactly as decompress_len), then decode the tagged elements. -/
def decompress (buf : List Byte) : Except Error (List Byte) :=
  match readVarint buf with
  | .error e => .error e
  | .ok (v, rest) =>
      if v > 0xFFFFFFFF then .error (.tooBig v 0xFFFFFFFF)
      else decodeElems v (rest.length + 1) rest []

/-- Modelled from the spec (section 4.3): the 4-byte little-endian
fingerprint at a position, used to look up candidate matches. -/
def fingerprint (b : List Byte) (i : Nat) : Nat :=
  byteAt b i + byteAt b (i + 1) * 256 + byteAt b (i + 2) * 65536
    + byteAt b (i + 3) * 16777216

/-- Modelled from the spec (section 9): cheap multiplicative hash of a
fingerprint into a power-of-two table of 2^14 slots. -/
def hashFp (fp : Nat) : Nat := fp * 0x1E35A7BD % 2 ^ 32 / 2 ^ 18

/-- Modelled from the spec (section 4.3): forward match extension, counting
bytes from t that equal the bytes from s while t stays inside the buffer.
Called with fuel b.length - t, which bounds the extension. -/
def extendMatch : Nat → List Byte → Nat → Nat → Nat
  | 0, _, _, _ => 0
  | fuel + 1, b, s, t =>
      if t < b.length ∧ byteAt b s = byteAt b t then
        1 + extendMatch fuel b (s + 1) (t + 1)
      else 0

/-- Modelled from the spec (section 4.3): a long match is split into copy
elements of at most 64 bytes each (the largest single-element length). -/
def emitCopies : Nat → Nat → Nat → List Elem
  | 0, _, _ => []
  | fuel + 1, off, len =>
      if len = 0 then []
      else if len ≤ 64 then [.copy off len]
      else .copy off 64 :: emitCopies fuel off (len - 64)

/-- Pending literal run covering positions i to j of b, if nonempty. -/
def midLit (b : List Byte) (i j : Nat) : List Elem :=
  if i < j then [.lit ((b.drop i).take (j - i))] else []

/-- Modelled from the spec (sections 4.3 and 9): the greedy single-pass scan
of the missing compress module. table maps hash slots to the most recently
seen position, pos is the scan position, litStart the start of the pending
literal run. While at least 4 bytes remain, the candidate from the table is
used when it lies strictly before pos and its fingerprint (hence its first
4 bytes) matches; the match is extended forward, the pending literal is
flushed, and the match is emitted as copies. Otherwise the scan advances one
byte. At the end the pending literal is flushed. Fuel dominates the number
of remaining positions. -/
def encLoop : Nat → List Byte → (Nat → Nat) → Nat → Nat → List Elem
  | 0, b, _, _, litStart => midLit b litStart b.length
  | fuel + 1, b, table, pos, litStart =>
      if pos + 4 > b.length then midLit b litStart b.length
      else
        let idx := hashFp (fingerprint b pos)
        let cand := table idx
        let table1 := fun i => if i = idx then pos else table i
        if cand < pos ∧ fingerprint b cand = fingerprint b pos then
          let mlen := 4 + extendMatch (b.length - (pos + 4)) b (cand + 4) (pos + 4)
          midLit b litStart pos ++ emitCopies mlen (pos - cand) mlen
            ++ encLoop fuel b table1 (pos + mlen) (pos + mlen)
        else encLoop fuel b table1 (pos + 1) litStart

/-- Modelled from the spec (section 4.3): compress writes the varint-encoded
input length first, then the wire form of the tagged elements produced by
the greedy scan over the whole input. -/
def compress (b : List Byte) : List Byte :=
  writeVarint b.length ++ serialize (encLoop (b.length + 1) b (fun _ => 0) 0 0)

/-- Well-formedness of an element sequence against the source buffer b from
output position pos on: literals are the verbatim bytes of b at the current
position, copies point back into already produced output with verified byte
equality (so self-overlapping copies replicate correctly), lengths respect
the wire-format bounds, and the sequence covers b exactly to its end. -/
def Good (b : List Byte) : Nat → List Elem → Prop
  | pos, [] => pos = b.length
  | pos, .lit bs :: es =>
      1 ≤ bs.length ∧ pos + bs.length ≤ b.length
        ∧ bs = (b.drop pos).take bs.length ∧ Good b (pos + bs.length) es
  | pos, .copy off len :: es =>
      1 ≤ len ∧ len ≤ 64 ∧ 1 ≤ off ∧ off ≤ pos ∧ pos + len ≤ b.length
        ∧ (∀ i, i < len → byteAt b (pos - off + i) = byteAt b (pos + i))
        ∧ Good b (pos + len) es

end Snappy

/-! ## Bitwise toolkit -/

theorem xor_left_comm (a b c : Nat) : a ^^^ (b ^^^ c) = b ^^^ (a ^^^ c) := by
  rw [← Nat.xor_assoc, Nat.xor_comm a b, Nat.xor_assoc]

theorem xor_mod_two_pow (a b n : Nat) :
    (a ^^^ b) % 2 ^ n = a % 2 ^ n ^^^ b % 2 ^ n := by
  apply Nat.eq_of_testBit_eq
  intro i
  simp only [Nat.testBit_mod_two_pow, Nat.testBit_xor]
  rcases Nat.lt_or_ge i n with h | h
  · simp [h]
  · have h' : ¬ i < n := by omega
    simp [h']

theorem xor_shiftRight (a b n : Nat) :
    (a ^^^ b) >>> n = a >>> n ^^^ b >>> n := by
  apply Nat.eq_of_testBit_eq
  intro i
  simp [Nat.testBit_shiftRight, Nat.testBit_xor]

theorem or_mod_two_pow (a b n : Nat) :
    (a ||| b) % 2 ^ n = a % 2 ^ n ||| b % 2 ^ n := by
  apply Nat.eq_of_testBit_eq
  intro i
  simp only [Nat.testBit_mod_two_pow, Nat.testBit_or]
  rcases Nat.lt_or_ge i n with h | h
  · simp [h]
  · have h' : ¬ i < n := by omega
    simp [h']

theorem or_shiftRight (a b n : Nat) :
    (a ||| b) >>> n = a >>> n ||| b >>> n := by
  apply Nat.eq_of_testBit_eq
  intro i
  simp [Nat.testBit_shiftRight, Nat.testBit_or]

theorem or_decompose (x n : Nat) : (x % 2 ^ n) ||| ((x >>> n) <<< n) = x := by
  apply Nat.eq_of_testBit_eq
  intro i
  simp only [Nat.testBit_or, Nat.testBit_mod_two_pow, Nat.testBit_shiftLeft,
    Nat.testBit_shiftRight]
  rcases Nat.lt_or_ge i n with h | h
  · have h2 : ¬ i ≥ n := by omega
    simp [h, h2]
  · have h2 : n + (i - n) = i := by omega
    have h3 : ¬ i < n := by omega
    simp [h2, h3, ge_iff_le, h]

theorem shiftRight_small (x n : Nat) (h : x < 2 ^ n) : x >>> n = 0 := by
  rw [Nat.shiftRight_eq_div_pow]
  exact Nat.div_eq_of_lt h

theorem shiftRight_lt (x n m : Nat) (h : x < 2 ^ m) : x >>> n < 2 ^ m := by
  rw [Nat.shiftRight_eq_div_pow]
  exact Nat.lt_of_le_of_lt (Nat.div_le_self _ _) h

theorem xor_mod256 (a b : Nat) : (a ^^^ b) % 256 = a % 256 ^^^ b % 256 := by
  have h := xor_mod_two_pow a b 8
  norm_num at h
  exact h

theorem byte_shiftRight8 (x : Nat) (h : x < 256) : x >>> 8 = 0 :=
  shiftRight_small x 8 (by norm_num; omega)

/-! ## CRC algebra: linearity and bounds of the table maps -/

theorem crc8_zero : crc8 0 = 0 := by decide

theorem crc8_linear (a b : Nat) : crc8 (a ^^^ b) = crc8 a ^^^ crc8 b := by
  have hab : (a ^^^ b) % 2 = a % 2 ^^^ b % 2 := by
    simpa using xor_mod_two_pow a b 1
  have hs : (a ^^^ b) >>> 1 = a >>> 1 ^^^ b >>> 1 := xor_shiftRight a b 1
  unfold crc8
  rcases Nat.mod_two_eq_zero_or_one a with ha | ha <;>
    rcases Nat.mod_two_eq_zero_or_one b with hb | hb <;>
      simp [ha, hb, hab, hs, Nat.xor_assoc, Nat.xor_comm, xor_left_comm,
        Nat.xor_self, Nat.xor_zero, Nat.zero_xor]

theorem crc8_lt (c : Nat) (h : c < 2 ^ 32) : crc8 c < 2 ^ 32 := by
  unfold crc8
  split
  · exact Nat.xor_lt_two_pow (shiftRight_lt _ _ _ h) (by norm_num)
  · exact shiftRight_lt _ _ _ h

theorem crc8_iter_linear (k a b : Nat) :
    crc8^[k] (a ^^^ b) = crc8^[k] a ^^^ crc8^[k] b := by
  induction k generalizing a b with
  | zero => rfl
  | succ k ih => simp [Function.iterate_succ_apply, crc8_linear, ih]

theorem crc8_iter_lt (k c : Nat) (h : c < 2 ^ 32) : crc8^[k] c < 2 ^ 32 := by
  induction k generalizing c with
  | zero => exact h
  | succ k ih => rw [Function.iterate_succ_apply]; exact ih _ (crc8_lt _ h)

theorem TABLE_linear (a b : Nat) : TABLE (a ^^^ b) = TABLE a ^^^ TABLE b :=
  crc8_iter_linear 8 a b

theorem TABLE_zero : TABLE 0 = 0 := by decide

theorem TABLE_lt (i : Nat) (h : i < 2 ^ 32) : TABLE i < 2 ^ 32 :=
  crc8_iter_lt 8 i h

theorem crcD_zero : crcD 0 = 0 := by decide

theorem crcD_linear (a b : Nat) : crcD (a ^^^ b) = crcD a ^^^ crcD b := by
  unfold crcD
  rw [xor_mod256 a b, xor_shiftRight a b 8, TABLE_linear]
  simp [Nat.xor_assoc, Nat.xor_comm, xor_left_comm]

theorem crcD_lt (x : Nat) (h : x < 2 ^ 32) : crcD x < 2 ^ 32 :=
  Nat.xor_lt_two_pow (TABLE_lt _ (by have := Nat.mod_lt x (show 0 < 256 by omega); omega))
    (shiftRight_lt _ _ _ h)

theorem crcD_byte (i : Nat) (h : i < 256) : crcD i = TABLE i := by
  unfold crcD
  rw [Nat.mod_eq_of_lt h, shiftRight_small i 8 (by omega), Nat.xor_zero]

theorem crcD_iter_linear (k a b : Nat) :
    crcD^[k] (a ^^^ b) = crcD^[k] a ^^^ crcD^[k] b := by
  induction k generalizing a b with
  | zero => rfl
  | succ k ih => simp [Function.iterate_succ_apply, crcD_linear, ih]

theorem crcD_iter_zero (k : Nat) : crcD^[k] 0 = 0 := by
  induction k with
  | zero => rfl
  | succ k ih => rw [Function.iterate_succ_apply, crcD_zero, ih]

theorem TABLE16_succ (k i : Nat) : TABLE16 (k + 1) i = crcD (TABLE16 k i) := rfl

theorem TABLE16_eq_iter (k i : Nat) (h : i < 256) :
    TABLE16 k i = crcD^[k + 1] i := by
  induction k with
  | zero => show TABLE i = crcD^[1] i; rw [Function.iterate_one, crcD_byte i h]
  | succ k ih => rw [TABLE16_succ, ih, ← Function.iterate_succ_apply' crcD]

theorem TABLE16_linear (k a b : Nat) :
    TABLE16 k (a ^^^ b) = TABLE16 k a ^^^ TABLE16 k b := by
  induction k with
  | zero => exact TABLE_linear a b
  | succ k ih => rw [TABLE16_succ, TABLE16_succ, TABLE16_succ, ih, crcD_linear]

theorem TABLE16_lt (k i : Nat) (h : i < 2 ^ 32) : TABLE16 k i < 2 ^ 32 := by
  induction k with
  | zero => exact TABLE_lt i h
  | succ k ih => rw [TABLE16_succ]; exact crcD_lt _ ih

theorem crcD_iter_byte (k i : Nat) (h : i < 256) :
    crcD^[k + 1] i = TABLE16 k i := (TABLE16_eq_iter k i h).symm

theorem crcD_split (k y : Nat) :
    crcD^[k + 1] y = TABLE16 k (y % 256) ^^^ crcD^[k] (y >>> 8) := by
  rw [Function.iterate_succ_apply]
  show crcD^[k] (TABLE (y % 256) ^^^ y >>> 8) = _
  rw [crcD_iter_linear, ← crcD_byte (y % 256) (Nat.mod_lt _ (by omega)),
    ← Function.iterate_succ_apply crcD, crcD_iter_byte k _ (Nat.mod_lt _ (by omega))]

theorem crcD_iter16 (y : Nat) (h : y < 2 ^ 32) :
    crcD^[16] y = TABLE16 15 (y % 256) ^^^ TABLE16 14 ((y >>> 8) % 256)
      ^^^ TABLE16 13 ((y >>> 16) % 256) ^^^ TABLE16 12 (y >>> 24) := by
  have h24 : y >>> 24 < 256 := by
    rw [Nat.shiftRight_eq_div_pow]; omega
  have r1 : y >>> 8 >>> 8 = y >>> 16 := (Nat.shiftRight_add y 8 8).symm
  have r2 : y >>> 16 >>> 8 = y >>> 24 := (Nat.shiftRight_add y 16 8).symm
  have e1 : crcD^[16] y = TABLE16 15 (y % 256) ^^^ crcD^[15] (y >>> 8) :=
    crcD_split 15 y
  have e2 : crcD^[15] (y >>> 8)
      = TABLE16 14 ((y >>> 8) % 256) ^^^ crcD^[14] (y >>> 16) := by
    have := crcD_split 14 (y >>> 8)
    rwa [r1] at this
  have e3 : crcD^[14] (y >>> 16)
      = TABLE16 13 ((y >>> 16) % 256) ^^^ crcD^[13] (y >>> 24) := by
    have := crcD_split 13 (y >>> 16)
    rwa [r2] at this
  have e4 : crcD^[13] (y >>> 24) = TABLE16 12 (y >>> 24) :=
    crcD_iter_byte 12 _ h24
  rw [e1, e2, e3, e4, Nat.xor_assoc, Nat.xor_assoc]

/-! ## The byte-at-a-time reference and the slicing-by-16 loop agree -/

theorem refByteStep_eq_crcD (crc : Nat) (b : Byte) :
    refByteStep crc b = crcD (crc ^^^ b.val) := by
  unfold refByteStep crcD
  rw [xor_mod256 crc b.val, xor_shiftRight crc b.val 8,
    Nat.mod_eq_of_lt b.isLt, byte_shiftRight8 b.val b.isLt, Nat.xor_zero]

theorem refByteStep_lt (crc : Nat) (b : Byte) (h : crc < 2 ^ 32) :
    refByteStep crc b < 2 ^ 32 := by
  rw [refByteStep_eq_crcD]
  have hb : b.val < 2 ^ 32 := Nat.lt_trans b.isLt (by norm_num)
  exact crcD_lt _ (Nat.xor_lt_two_pow h hb)

theorem foldl_refByteStep_xor (l : List Byte) (x y : Nat) :
    List.foldl refByteStep (x ^^^ y) l
      = crcD^[l.length] x ^^^ List.foldl refByteStep y l := by
  induction l generalizing x y with
  | nil => rfl
  | cons b t ih =>
      have hstep : refByteStep (x ^^^ y) b = crcD x ^^^ refByteStep y b := by
        rw [refByteStep_eq_crcD, Nat.xor_assoc, crcD_linear, ← refByteStep_eq_crcD]
      simp only [List.foldl_cons, hstep, ih, List.length_cons,
        Function.iterate_succ_apply]

theorem foldl_refByteStep_zero_cons (b : Byte) (t : List Byte) :
    List.foldl refByteStep 0 (b :: t)
      = TABLE16 t.length b.val ^^^ List.foldl refByteStep 0 t := by
  have h0 : refByteStep 0 b = TABLE b.val := by
    rw [refByteStep_eq_crcD, Nat.zero_xor, crcD_byte b.val b.isLt]
  calc List.foldl refByteStep 0 (b :: t)
      = List.foldl refByteStep (TABLE b.val ^^^ 0) t := by
        simp only [List.foldl_cons, h0, Nat.xor_zero]
    _ = crcD^[t.length] (TABLE b.val) ^^^ List.foldl refByteStep 0 t :=
        foldl_refByteStep_xor t _ 0
    _ = TABLE16 t.length b.val ^^^ List.foldl refByteStep 0 t := by
        rw [← crcD_byte b.val b.isLt, ← Function.iterate_succ_apply crcD,
          crcD_iter_byte t.length b.val b.isLt]

theorem foldl_refByteStep_lt (l : List Byte) (crc : Nat) (h : crc < 2 ^ 32) :
    List.foldl refByteStep crc l < 2 ^ 32 := by
  induction l generalizing crc with
  | nil => exact h
  | cons b t ih => exact ih _ (refByteStep_lt crc b h)

theorem read_u32_le_lt (b0 b1 b2 b3 : Byte) : read_u32_le b0 b1 b2 b3 < 2 ^ 32 := by
  have h0 := b0.isLt; have h1 := b1.isLt; have h2 := b2.isLt; have h3 := b3.isLt
  unfold read_u32_le
  omega

theorem read_u32_le_byte0 (b0 b1 b2 b3 : Byte) :
    read_u32_le b0 b1 b2 b3 % 256 = b0.val := by
  have h0 := b0.isLt
  unfold read_u32_le
  omega

theorem read_u32_le_byte1 (b0 b1 b2 b3 : Byte) :
    (read_u32_le b0 b1 b2 b3 >>> 8) % 256 = b1.val := by
  have h0 := b0.isLt; have h1 := b1.isLt
  unfold read_u32_le
  rw [Nat.shiftRight_eq_div_pow]
  omega

theorem read_u32_le_byte2 (b0 b1 b2 b3 : Byte) :
    (read_u32_le b0 b1 b2 b3 >>> 16) % 256 = b2.val := by
  have h0 := b0.isLt; have h1 := b1.isLt; have h2 := b2.isLt
  unfold read_u32_le
  rw [Nat.shiftRight_eq_div_pow]
  omega

theorem read_u32_le_byte3 (b0 b1 b2 b3 : Byte) :
    read_u32_le b0 b1 b2 b3 >>> 24 = b3.val := by
  have h0 := b0.isLt; have h1 := b1.isLt; have h2 := b2.isLt; have h3 := b3.isLt
  unfold read_u32_le
  rw [Nat.shiftRight_eq_div_pow]
  omega

theorem crcBlockStep_eq_foldl (crc : Nat) (hc : crc < 2 ^ 32)
    (b0 b1 b2 b3 b4 b5 b6 b7 b8 b9 b10 b11 b12 b13 b14 b15 : Byte) :
    crcBlockStep crc b0 b1 b2 b3 b4 b5 b6 b7 b8 b9 b10 b11 b12 b13 b14 b15
      = List.foldl refByteStep crc
          [b0, b1, b2, b3, b4, b5, b6, b7, b8, b9, b10, b11, b12, b13, b14, b15] := by
  have hxlt : crc ^^^ read_u32_le b0 b1 b2 b3 < 2 ^ 32 :=
    Nat.xor_lt_two_pow hc (read_u32_le_lt b0 b1 b2 b3)
  have h24lt : (crc ^^^ read_u32_le b0 b1 b2 b3) >>> 24 < 256 := by
    rw [Nat.shiftRight_eq_div_pow]
    omega
  have ex0 : (crc ^^^ read_u32_le b0 b1 b2 b3) % 256 = crc % 256 ^^^ b0.val := by
    rw [xor_mod256, read_u32_le_byte0]
  have ex1 : ((crc ^^^ read_u32_le b0 b1 b2 b3) >>> 8) % 256
      = (crc >>> 8) % 256 ^^^ b1.val := by
    rw [xor_shiftRight, xor_mod256, read_u32_le_byte1]
  have ex2 : ((crc ^^^ read_u32_le b0 b1 b2 b3) >>> 16) % 256
      = (crc >>> 16) % 256 ^^^ b2.val := by
    rw [xor_shiftRight, xor_mod256, read_u32_le_byte2]
  have ex3 : ((crc ^^^ read_u32_le b0 b1 b2 b3) >>> 24) % 256
      = crc >>> 24 ^^^ b3.val := by
    rw [Nat.mod_eq_of_lt h24lt, xor_shiftRight, read_u32_le_byte3]
  have hr : List.foldl refByteStep crc
        [b0, b1, b2, b3, b4, b5, b6, b7, b8, b9, b10, b11, b12, b13, b14, b15]
      = crcD^[16] crc ^^^ List.foldl refByteStep 0
          [b0, b1, b2, b3, b4, b5, b6, b7, b8, b9, b10, b11, b12, b13, b14, b15] := by
    have h := foldl_refByteStep_xor
      [b0, b1, b2, b3, b4, b5, b6, b7, b8, b9, b10, b11, b12, b13, b14, b15] crc 0
    rw [Nat.xor_zero] at h
    simpa using h
  rw [hr, crcD_iter16 crc hc]
  simp only [foldl_refByteStep_zero_cons, List.length_cons, List.length_nil,
    List.foldl_nil]
  norm_num
  simp only [crcBlockStep, ex0, ex1, ex2, ex3, TABLE16_linear]
  ac_rfl

theorem crcLoop_eq_foldl (crc : Nat) (buf : List Byte) :
    crc < 2 ^ 32 → crcLoop crc buf = List.foldl refByteStep crc buf := by
  induction crc, buf using crcLoop.induct with
  | case1 crc b0 b1 b2 b3 b4 b5 b6 b7 b8 b9 b10 b11 b12 b13 b14 b15 rest ih =>
      intro hc
      have hblock := crcBlockStep_eq_foldl crc hc b0 b1 b2 b3 b4 b5 b6 b7 b8 b9
        b10 b11 b12 b13 b14 b15
      have hlt : crcBlockStep crc b0 b1 b2 b3 b4 b5 b6 b7 b8 b9 b10 b11 b12 b13
          b14 b15 < 2 ^ 32 := by
        rw [hblock]
        exact foldl_refByteStep_lt _ crc hc
      have hstep : crcLoop crc (b0 :: b1 :: b2 :: b3 :: b4 :: b5 :: b6 :: b7
            :: b8 :: b9 :: b10 :: b11 :: b12 :: b13 :: b14 :: b15 :: rest)
          = crcLoop (crcBlockStep crc b0 b1 b2 b3 b4 b5 b6 b7 b8 b9 b10 b11 b12
              b13 b14 b15) rest := rfl
      have happ : (b0 :: b1 :: b2 :: b3 :: b4 :: b5 :: b6 :: b7 :: b8 :: b9
            :: b10 :: b11 :: b12 :: b13 :: b14 :: b15 :: rest)
          = [b0, b1, b2, b3, b4, b5, b6, b7, b8, b9, b10, b11, b12, b13, b14, b15]
              ++ rest := rfl
      rw [hstep, ih hlt, hblock, happ, List.foldl_append]
  | case2 crc buf hne =>
      intro _
      rcases buf with _ | ⟨b0, _ | ⟨b1, _ | ⟨b2, _ | ⟨b3, _ | ⟨b4, _ | ⟨b5,
        _ | ⟨b6, _ | ⟨b7, _ | ⟨b8, _ | ⟨b9, _ | ⟨b10, _ | ⟨b11, _ | ⟨b12,
        _ | ⟨b13, _ | ⟨b14, _ | ⟨b15, rest⟩⟩⟩⟩⟩⟩⟩⟩⟩⟩⟩⟩⟩⟩⟩⟩
      case cons.cons.cons.cons.cons.cons.cons.cons.cons.cons.cons.cons.cons.cons.cons.cons =>
        exact absurd rfl (hne b0 b1 b2 b3 b4 b5 b6 b7 b8 b9 b10 b11 b12 b13 b14 b15 rest)
      all_goals rfl

/-- Main CRC refinement lemma: the slicing-by-16 implementation computes the
plain byte-at-a-time reference CRC32C on every input. -/
theorem crc32c_slice16_eq_ref (buf : List Byte) :
    crc32c_slice16 buf = crc32c_ref buf := by
  unfold crc32c_slice16 crc32c_ref
  rw [crcLoop_eq_foldl 0xFFFFFFFF buf (by norm_num)]

theorem crc32c_ref_lt (buf : List Byte) : crc32c_ref buf < 2 ^ 32 := by
  unfold crc32c_ref
  exact Nat.xor_lt_two_pow (foldl_refByteStep_lt buf _ (by norm_num)) (by norm_num)

theorem crc32c_slice16_lt (buf : List Byte) : crc32c_slice16 buf < 2 ^ 32 := by
  rw [crc32c_slice16_eq_ref]
  exact crc32c_ref_lt buf

/-- Tail behaviour of the loop: on fewer than 16 bytes the block phase is
skipped and every byte goes through the single-table step. -/
theorem crcLoop_small (crc : Nat) (buf : List Byte) (h : buf.length < 16) :
    crcLoop crc buf = List.foldl crcByteStep crc buf := by
  rcases buf with _ | ⟨b0, _ | ⟨b1, _ | ⟨b2, _ | ⟨b3, _ | ⟨b4, _ | ⟨b5,
    _ | ⟨b6, _ | ⟨b7, _ | ⟨b8, _ | ⟨b9, _ | ⟨b10, _ | ⟨b11, _ | ⟨b12,
    _ | ⟨b13, _ | ⟨b14, _ | ⟨b15, rest⟩⟩⟩⟩⟩⟩⟩⟩⟩⟩⟩⟩⟩⟩⟩⟩
  case cons.cons.cons.cons.cons.cons.cons.cons.cons.cons.cons.cons.cons.cons.cons.cons =>
    simp only [List.length_cons] at h
    omega
  all_goals rfl

/-! ## Rotation and masking -/

theorem shiftLeft17_mod (sum : Nat) :
    (sum <<< 17) % 2 ^ 32 = (sum % 2 ^ 15) <<< (32 - 15) := by
  rw [Nat.shiftLeft_eq, Nat.shiftLeft_eq,
    show (2 : Nat) ^ 32 = 2 ^ 15 * 2 ^ 17 by norm_num,
    Nat.mul_mod_mul_right]

theorem rot15_lt (x : Nat) (hx : x < 2 ^ 32) :
    (x >>> 15) ||| ((x % 2 ^ 15) <<< 17) < 2 ^ 32 := by
  apply Nat.or_lt_two_pow (shiftRight_lt x 15 32 hx)
  rw [Nat.shiftLeft_eq]
  have : x % 2 ^ 15 < 2 ^ 15 := Nat.mod_lt _ (by norm_num)
  calc x % 2 ^ 15 * 2 ^ 17 < 2 ^ 15 * 2 ^ 17 :=
        mul_lt_mul_of_pos_right this (by norm_num)
    _ = 2 ^ 32 := by norm_num

theorem rot15_recover (x : Nat) (hx : x < 2 ^ 32) :
    (((x >>> 15) ||| ((x % 2 ^ 15) <<< 17)) >>> 17)
      ||| ((((x >>> 15) ||| ((x % 2 ^ 15) <<< 17)) % 2 ^ 17) <<< 15) = x := by
  have hA : x >>> 15 < 2 ^ 17 := by
    rw [Nat.shiftRight_eq_div_pow]
    omega
  have e1 : ((x >>> 15) ||| ((x % 2 ^ 15) <<< 17)) >>> 17 = x % 2 ^ 15 := by
    rw [or_shiftRight, shiftRight_small _ _ hA, Nat.zero_or, Nat.shiftLeft_eq,
      Nat.shiftRight_eq_div_pow, Nat.mul_div_cancel _ (show 0 < 2 ^ 17 by norm_num)]
  have e2 : ((x >>> 15) ||| ((x % 2 ^ 15) <<< 17)) % 2 ^ 17 = x >>> 15 := by
    rw [or_mod_two_pow, Nat.mod_eq_of_lt hA, Nat.shiftLeft_eq, Nat.mul_mod_left,
      Nat.or_zero]
  rw [e1, e2]
  exact or_decompose x 15

theorem masked_of_raw_inj (x y : Nat) (hx : x < 2 ^ 32) (hy : y < 2 ^ 32)
    (h : (((x >>> 15) ||| ((x <<< 17) % 2 ^ 32)) + 0xA282EAD8) % 2 ^ 32
       = (((y >>> 15) ||| ((y <<< 17) % 2 ^ 32)) + 0xA282EAD8) % 2 ^ 32) :
    x = y := by
  have h17 : (32 : Nat) - 15 = 17 := by norm_num
  rw [shiftLeft17_mod x, shiftLeft17_mod y, h17] at h
  have hrx := rot15_lt x hx
  have hry := rot15_lt y hy
  have hrot : (x >>> 15) ||| ((x % 2 ^ 15) <<< 17)
      = (y >>> 15) ||| ((y % 2 ^ 15) <<< 17) := by omega
  rw [← rot15_recover x hx, ← rot15_recover y hy, hrot]

/-! ## Single-bit sensitivity of the raw CRC -/

set_option maxRecDepth 4000

theorem TABLE_hi_pos (i : Fin 256) (h : 0 < i.val) : TABLE i.val >>> 24 ≠ 0 := by
  revert h
  revert i
  decide

theorem crcD_ker (z : Nat) (hz : z < 2 ^ 32) (h : crcD z = 0) : z = 0 := by
  unfold crcD at h
  have heq : TABLE (z % 256) = z >>> 8 := Nat.xor_eq_zero.mp h
  have h8 : z >>> 8 < 2 ^ 24 := by
    rw [Nat.shiftRight_eq_div_pow]
    omega
  have hlow : z % 256 = 0 := by
    by_contra hne
    apply TABLE_hi_pos ⟨z % 256, Nat.mod_lt _ (by omega)⟩ (Nat.pos_of_ne_zero hne)
    rw [heq]
    exact shiftRight_small _ _ h8
  have hhi : z >>> 8 = 0 := by
    rw [← heq, hlow, TABLE_zero]
  rw [Nat.shiftRight_eq_div_pow] at hhi
  omega

theorem crcD_inj (x y : Nat) (hx : x < 2 ^ 32) (hy : y < 2 ^ 32)
    (h : crcD x = crcD y) : x = y := by
  have h0 : crcD (x ^^^ y) = 0 := by
    rw [crcD_linear, h, Nat.xor_self]
  exact Nat.xor_eq_zero.mp (crcD_ker _ (Nat.xor_lt_two_pow hx hy) h0)

theorem xor_right_cancel (a b c : Nat) (h : a ^^^ c = b ^^^ c) : a = b := by
  have := congrArg (fun t => t ^^^ c) h
  simpa [Nat.xor_assoc, Nat.xor_self, Nat.xor_zero] using this

theorem xor_left_cancel (a b c : Nat) (h : c ^^^ a = c ^^^ b) : a = b := by
  have h2 := congrArg (fun t => c ^^^ t) h
  simpa [← Nat.xor_assoc, Nat.xor_self, Nat.zero_xor] using h2

theorem byte_lt32 (b : Byte) : b.val < 2 ^ 32 :=
  Nat.lt_trans b.isLt (by norm_num)

theorem refByteStep_inj_state (c1 c2 : Nat) (b : Byte) (h1 : c1 < 2 ^ 32)
    (h2 : c2 < 2 ^ 32) (hne : c1 ≠ c2) : refByteStep c1 b ≠ refByteStep c2 b := by
  intro he
  rw [refByteStep_eq_crcD, refByteStep_eq_crcD] at he
  exact hne (xor_right_cancel c1 c2 b.val
    (crcD_inj _ _ (Nat.xor_lt_two_pow h1 (byte_lt32 b))
      (Nat.xor_lt_two_pow h2 (byte_lt32 b)) he))

theorem refByteStep_inj_byte (c : Nat) (hc : c < 2 ^ 32) (b b' : Byte)
    (hne : b ≠ b') : refByteStep c b ≠ refByteStep c b' := by
  intro he
  rw [refByteStep_eq_crcD, refByteStep_eq_crcD] at he
  have hcc := crcD_inj _ _ (Nat.xor_lt_two_pow hc (byte_lt32 b))
    (Nat.xor_lt_two_pow hc (byte_lt32 b')) he
  exact hne (Fin.ext (xor_left_cancel _ _ _ hcc))

theorem foldl_refByteStep_ne (l : List Byte) (c1 c2 : Nat) (h1 : c1 < 2 ^ 32)
    (h2 : c2 < 2 ^ 32) (hne : c1 ≠ c2) :
    List.foldl refByteStep c1 l ≠ List.foldl refByteStep c2 l := by
  induction l generalizing c1 c2 with
  | nil => exact hne
  | cons b t ih =>
      exact ih _ _ (refByteStep_lt _ _ h1) (refByteStep_lt _ _ h2)
        (refByteStep_inj_state _ _ b h1 h2 hne)

theorem foldl_set_ne (l : List Byte) (j : Nat) (v : Byte) (c : Nat)
    (hc : c < 2 ^ 32) (hj : j < l.length) (hne : v ≠ l.get ⟨j, hj⟩) :
    List.foldl refByteStep c (l.set j v) ≠ List.foldl refByteStep c l := by
  induction l generalizing j c with
  | nil => simp at hj
  | cons b t ih =>
      cases j with
      | zero =>
          simp only [List.set]
          simp only [List.foldl_cons]
          exact foldl_refByteStep_ne t _ _ (refByteStep_lt _ _ hc)
            (refByteStep_lt _ _ hc) (refByteStep_inj_byte c hc v b hne)
      | succ j =>
          simp only [List.set]
          simp only [List.foldl_cons]
          exact ih j (refByteStep c b) (refByteStep_lt _ _ hc)
            (Nat.lt_of_succ_lt_succ (by simpa using hj)) hne

theorem crc32c_ref_set_ne (l : List Byte) (j : Nat) (v : Byte)
    (hj : j < l.length) (hne : v ≠ l.get ⟨j, hj⟩) :
    crc32c_ref (l.set j v) ≠ crc32c_ref l := by
  unfold crc32c_ref
  intro he
  exact foldl_set_ne l j v 0xFFFFFFFF (by norm_num) hj hne
    (xor_right_cancel _ _ _ he)

theorem getD_eq_get_of_lt (l : List Byte) (j : Nat) (h : j < l.length) :
    l.getD j 0 = l.get ⟨j, h⟩ :=
  List.getD_eq_getElem l 0 h

theorem flipBit_ne (x : Byte) (k : Nat) : flipBit x k ≠ x := by
  intro he
  have hv : x.val ^^^ 2 ^ (k % 8) = x.val ^^^ 0 := by
    rw [Nat.xor_zero]
    exact congrArg Fin.val he
  exact absurd (xor_left_cancel _ _ _ hv) (by positivity)


/-! ## Claim theorems: checksum -/

/-- C2: for every buffer, crc32c_masked equals the raw CRC32C rotated right by
15 bits plus 0xA282EAD8 modulo 2^32; and on 32-bit values the expression
(sum >> 15) | (sum << 17) realizes rotate_right(sum, 15). -/
theorem crc32c_masked_is_rotate_add :
    (∀ (s : CheckSummer) (buf : List Byte),
        s.crc32c_masked buf = (rotr32 (s.crc32c buf) 15 + 0xA282EAD8) % 2 ^ 32)
    ∧ (∀ sum : Nat, sum < 2 ^ 32 →
        (sum >>> 15) ||| ((sum <<< 17) % 2 ^ 32) = rotr32 sum 15) := by
  constructor
  · intro s buf
    simp only [CheckSummer.crc32c_masked, rotr32, shiftLeft17_mod]
  · intro sum _
    simp only [rotr32, shiftLeft17_mod]

/-- Witness for C2 at concrete inputs. -/
theorem crc32c_masked_is_rotate_add_witness :
    (CheckSummer.new.crc32c_masked [(1 : Byte)]
      = (rotr32 (CheckSummer.new.crc32c [(1 : Byte)]) 15 + 0xA282EAD8) % 2 ^ 32)
    ∧ ((3 : Nat) < 2 ^ 32
      ∧ ((3 : Nat) >>> 15) ||| (((3 : Nat) <<< 17) % 2 ^ 32) = rotr32 3 15) :=
  ⟨crc32c_masked_is_rotate_add.1 CheckSummer.new [(1 : Byte)],
    ⟨by norm_num, crc32c_masked_is_rotate_add.2 3 (by norm_num)⟩⟩

/-- C3: the raw CRC32C starts from the all-ones running value, processes a
tail of fewer than 16 bytes one byte at a time through the single 256-entry
table via crc = TABLE[(crc low byte) XOR byte] XOR (crc >> 8), and returns
the bitwise complement of the running value. -/
theorem crc32c_slice16_tail_structure :
    (∀ (crc : Nat) (buf : List Byte), buf.length < 16 →
        crcLoop crc buf
          = List.foldl (fun c b => TABLE ((c % 256) ^^^ b.val) ^^^ (c >>> 8)) crc buf)
    ∧ (∀ buf : List Byte, buf.length < 16 →
        crc32c_slice16 buf
          = List.foldl (fun c b => TABLE ((c % 256) ^^^ b.val) ^^^ (c >>> 8))
              0xFFFFFFFF buf ^^^ 0xFFFFFFFF) := by
  constructor
  · intro crc buf h
    exact crcLoop_small crc buf h
  · intro buf h
    unfold crc32c_slice16
    rw [crcLoop_small _ _ h]
    rfl

/-- Witness for C3 at a concrete two-byte input. -/
theorem crc32c_slice16_tail_structure_witness :
    (([(7 : Byte), 42] : List Byte).length < 16)
    ∧ crc32c_slice16 [(7 : Byte), 42]
        = List.foldl (fun c b => TABLE ((c % 256) ^^^ b.val) ^^^ (c >>> 8))
            0xFFFFFFFF [(7 : Byte), 42] ^^^ 0xFFFFFFFF :=
  ⟨by decide, crc32c_slice16_tail_structure.2 [(7 : Byte), 42] (by decide)⟩

/-- C4: the slicing-by-16 implementation computes exactly the plain
byte-at-a-time reference CRC32C on every input. -/
theorem crc32c_slice16_refines_reference (buf : List Byte) :
    crc32c_slice16 buf = crc32c_ref buf :=
  crc32c_slice16_eq_ref buf

/-- C5: crc32c_masked is deterministic and depends only on the buffer
contents; in particular two CheckSummer instances with different
accelerated-path flags give the same numeric result on every buffer. -/
theorem crc32c_masked_flag_independent :
    ∀ (s1 s2 : CheckSummer) (buf : List Byte),
      s1.crc32c_masked buf = s2.crc32c_masked buf := by
  intro s1 s2 buf
  rfl

/-- C6: flipping any single bit of any buffer changes the masked CRC32C. -/
theorem crc32c_masked_single_bit_sensitive :
    ∀ (l : List Byte) (j k : Nat), j < l.length → k < 8 →
      CheckSummer.new.crc32c_masked (l.set j (flipBit (l.getD j 0) k))
        ≠ CheckSummer.new.crc32c_masked l := by
  intro l j k hj hk hmask
  simp only [CheckSummer.crc32c_masked, CheckSummer.crc32c] at hmask
  have hraw := masked_of_raw_inj _ _ (crc32c_slice16_lt _) (crc32c_slice16_lt _)
    hmask
  rw [crc32c_slice16_eq_ref, crc32c_slice16_eq_ref] at hraw
  refine crc32c_ref_set_ne l j _ hj ?_ hraw
  rw [getD_eq_get_of_lt l j hj]
  exact flipBit_ne _ k

/-- Witness for C6: flipping bit 0 of the single zero byte changes the
checksum. -/
theorem crc32c_masked_single_bit_sensitive_witness :
    ((0 : Nat) < ([(0 : Byte)] : List Byte).length) ∧ ((0 : Nat) < 8)
    ∧ CheckSummer.new.crc32c_masked
          (([(0 : Byte)] : List Byte).set 0 (flipBit (([(0 : Byte)] : List Byte).getD 0 0) 0))
        ≠ CheckSummer.new.crc32c_masked [(0 : Byte)] :=
  ⟨by decide, by decide,
    crc32c_masked_single_bit_sensitive [(0 : Byte)] 0 0 (by decide) (by decide)⟩

/-- C9: the masked CRC32C of the empty buffer is exactly 0xA282EAD8: the raw
CRC of the empty buffer is 0, and the masking transform maps 0 to
0 + 0xA282EAD8. -/
theorem crc32c_masked_empty :
    crc32c_slice16 [] = 0 ∧ CheckSummer.new.crc32c_masked [] = 0xA282EAD8
      ∧ (rotr32 0 15 + 0xA282EAD8) % 2 ^ 32 = 0xA282EAD8 :=
  ⟨by decide, by decide, by decide⟩

/-- C10: CheckSummer::new sets the accelerated-path flag to false, crc32c
always dispatches to the portable crc32c_slice16 regardless of the flag, and
crc32c_masked is the masking transform applied to crc32c_slice16. -/
theorem checksummer_always_portable :
    CheckSummer.new.sse42 = false
    ∧ (∀ (s : CheckSummer) (buf : List Byte), s.crc32c buf = crc32c_slice16 buf)
    ∧ (∀ (s : CheckSummer) (buf : List Byte),
        s.crc32c_masked buf
          = (((crc32c_slice16 buf >>> 15) ||| ((crc32c_slice16 buf <<< 17) % 2 ^ 32))
              + 0xA282EAD8) % 2 ^ 32) :=
  ⟨rfl, fun _ _ => rfl, fun _ _ => rfl⟩

/-! ## Varint error behaviour -/

theorem readVarintGo_allHigh (g : Nat) (buf : List Byte) (mult acc : Nat)
    (h : ∀ i, i < g → i < buf.length → 128 ≤ Snappy.byteAt buf i) :
    Snappy.readVarintGo buf g mult acc = .error .corrupt := by
  induction g generalizing buf mult acc with
  | zero =>
      cases buf with
      | nil => rfl
      | cons b rest => rfl
  | succ g ih =>
      cases buf with
      | nil => rfl
      | cons b rest =>
          have hb : 128 ≤ b.val := by
            have := h 0 (by omega) (by simp)
            simpa [Snappy.byteAt] using this
          have hlt : ¬ b.val < 128 := by omega
          show Snappy.readVarintGo (b :: rest) (g + 1) mult acc = .error .corrupt
          rw [Snappy.readVarintGo]
          rw [if_neg hlt]
          apply ih
          intro i hig hilen
          have := h (i + 1) (by omega) (by simp; omega)
          simpa [Snappy.byteAt] using this

theorem readVarint_allHigh (buf : List Byte)
    (h : ∀ i, i < 5 → i < buf.length → 128 ≤ Snappy.byteAt buf i) :
    Snappy.readVarint buf = .error .corrupt :=
  readVarintGo_allHigh 5 buf 1 0 h

/-! ## Claim theorems: varint error handling -/

/-- C8: when the length varint is unterminated before the input ends, or
needs more than 5 groups, decompress_len and decompress fail with Corrupt.
The hypothesis states exactly that every byte among the first five that
exists has its high bit set: this covers an input that ends with no
terminating group, and an input whose first five groups all continue. -/
theorem varint_unterminated_corrupt :
    ∀ buf : List Byte, (∀ i, i < 5 → i < buf.length → 128 ≤ Snappy.byteAt buf i) →
      Snappy.decompress_len buf = .error .corrupt
      ∧ Snappy.decompress buf = .error .corrupt := by
  intro buf h
  have hv := readVarint_allHigh buf h
  constructor
  · unfold Snappy.decompress_len
    rw [hv]
  · unfold Snappy.decompress
    rw [hv]

/-- Witness for C8: the single byte 0xFF and ten 0xFF bytes followed by 0x00
both fail with Corrupt. -/
theorem varint_unterminated_corrupt_witness :
    (Snappy.decompress_len [(0xFF : Byte)] = .error .corrupt
      ∧ Snappy.decompress [(0xFF : Byte)] = .error .corrupt)
    ∧ (Snappy.decompress_len
          [(0xFF : Byte), 0xFF, 0xFF, 0xFF, 0xFF, 0xFF, 0xFF, 0xFF, 0xFF, 0xFF, 0x00]
          = .error .corrupt
      ∧ Snappy.decompress
          [(0xFF : Byte), 0xFF, 0xFF, 0xFF, 0xFF, 0xFF, 0xFF, 0xFF, 0xFF, 0xFF, 0x00]
          = .error .corrupt) :=
  ⟨varint_unterminated_corrupt [(0xFF : Byte)] (by decide),
    varint_unterminated_corrupt
      [(0xFF : Byte), 0xFF, 0xFF, 0xFF, 0xFF, 0xFF, 0xFF, 0xFF, 0xFF, 0xFF, 0x00]
      (by decide)⟩

/-- C7: when the leading varint is well-formed but its value exceeds
2^32 - 1, decompress_len and decompress fail with TooBig carrying that value
and the ceiling 2^32 - 1, not with Corrupt. -/
theorem varint_value_overflow_toobig :
    ∀ (buf rest : List Byte) (v : Nat),
      Snappy.readVarint buf = .ok (v, rest) → v > 0xFFFFFFFF →
      Snappy.decompress_len buf = .error (.tooBig v 0xFFFFFFFF)
      ∧ Snappy.decompress buf = .error (.tooBig v 0xFFFFFFFF) := by
  intro buf rest v hv hbig
  constructor
  · unfold Snappy.decompress_len
    rw [hv]
    simp [hbig]
  · unfold Snappy.decompress
    rw [hv]
    simp [hbig]

/-- Witness for C7: the 5-byte varint of 4294967296 = 2^32 decodes cleanly
and is rejected as TooBig by both operations. -/
theorem varint_value_overflow_toobig_witness :
    (Snappy.readVarint [(0x80 : Byte), 0x80, 0x80, 0x80, 0x10]
        = .ok (4294967296, []))
    ∧ ((4294967296 : Nat) > 0xFFFFFFFF)
    ∧ Snappy.decompress_len [(0x80 : Byte), 0x80, 0x80, 0x80, 0x10]
        = .error (.tooBig 4294967296 4294967295)
    ∧ Snappy.decompress [(0x80 : Byte), 0x80, 0x80, 0x80, 0x10]
        = .error (.tooBig 4294967296 4294967295) :=
  ⟨rfl, by norm_num,
    (varint_value_overflow_toobig [(0x80 : Byte), 0x80, 0x80, 0x80, 0x10] [] 4294967296
      rfl (by norm_num)).1,
    (varint_value_overflow_toobig [(0x80 : Byte), 0x80, 0x80, 0x80, 0x10] [] 4294967296
      rfl (by norm_num)).2⟩

/-! ## Varint round-trip -/

theorem mkByte_val (v : Nat) (h : v < 256) : (mkByte v).val = v :=
  Nat.mod_eq_of_lt h

theorem readVarintGo_writeVarintGo (g : Nat) :
    ∀ (n : Nat), n < 128 ^ (g + 1) → ∀ (rest : List Byte) (mult acc : Nat),
      Snappy.readVarintGo (Snappy.writeVarintGo (g + 1) n ++ rest) (g + 1) mult acc
        = .ok (acc + n * mult, rest) := by
  induction g with
  | zero =>
      intro n hn rest mult acc
      have hn' : n < 128 := by simpa using hn
      rw [Snappy.writeVarintGo, if_pos hn']
      show Snappy.readVarintGo (mkByte n :: rest) 1 mult acc = _
      rw [Snappy.readVarintGo]
      rw [mkByte_val n (by omega), if_pos hn']
  | succ g ih =>
      intro n hn rest mult acc
      by_cases hn' : n < 128
      · rw [Snappy.writeVarintGo, if_pos hn']
        show Snappy.readVarintGo (mkByte n :: rest) (g + 2) mult acc = _
        rw [Snappy.readVarintGo]
        rw [mkByte_val n (by omega), if_pos hn']
      · rw [Snappy.writeVarintGo, if_neg hn']
        show Snappy.readVarintGo (mkByte (n % 128 + 128) :: _) (g + 2) mult acc = _
        rw [Snappy.readVarintGo]
        have hv : (mkByte (n % 128 + 128)).val = n % 128 + 128 :=
          mkByte_val _ (by omega)
        rw [hv, if_neg (by omega)]
        have hdiv : n / 128 < 128 ^ (g + 1) := by
          rw [Nat.div_lt_iff_lt_mul (by omega)]
          calc n < 128 ^ (g + 2) := hn
            _ = 128 ^ (g + 1) * 128 := by ring
        have harith : acc + (n % 128 + 128 - 128) * mult + n / 128 * (mult * 128)
            = acc + n * mult := by
          have h128 : n % 128 + 128 - 128 = n % 128 := by omega
          rw [h128]
          have h2 : n % 128 * mult + n / 128 * (mult * 128) = n * mult := by
            conv_rhs => rw [← Nat.div_add_mod n 128]
            ring
          omega
        have hrec := ih (n / 128) hdiv rest (mult * 128)
          (acc + (n % 128 + 128 - 128) * mult)
        rw [harith] at hrec
        exact hrec

theorem readVarint_writeVarint (n : Nat) (h : n < 2 ^ 32) (rest : List Byte) :
    Snappy.readVarint (Snappy.writeVarint n ++ rest) = .ok (n, rest) := by
  have h5 : n < 128 ^ 5 := by
    calc n < 2 ^ 32 := h
      _ ≤ 128 ^ 5 := by norm_num
  have := readVarintGo_writeVarintGo 4 n h5 rest 1 0
  simpa [Snappy.readVarint, Snappy.writeVarint] using this

/-! ## Wire-format inversion -/

theorem leBytes_length (k : Nat) : ∀ x : Nat, (Snappy.leBytes k x).length = k := by
  induction k with
  | zero => intro x; rfl
  | succ k ih => intro x; simp [Snappy.leBytes, ih]

theorem natFromLe_leBytes (k : Nat) :
    ∀ x : Nat, x < 256 ^ k → Snappy.natFromLe (Snappy.leBytes k x) = x := by
  induction k with
  | zero =>
      intro x hx
      simp at hx
      simp [hx, Snappy.leBytes, Snappy.natFromLe]
  | succ k ih =>
      intro x hx
      have hdiv : x / 256 < 256 ^ k := by
        rw [Nat.div_lt_iff_lt_mul (by omega)]
        calc x < 256 ^ (k + 1) := hx
          _ = 256 ^ k * 256 := by ring
      simp only [Snappy.leBytes, Snappy.natFromLe, ih (x / 256) hdiv, mkByte]
      omega

theorem take_len_append (l rest : List Byte) (k : Nat) (h : l.length = k) :
    (l ++ rest).take k = l := by
  subst h
  exact List.take_left l rest

theorem drop_len_append (l rest : List Byte) (k : Nat) (h : l.length = k) :
    (l ++ rest).drop k = rest := by
  subst h
  exact List.drop_left l rest

theorem serialize_cons (e : Snappy.Elem) (es : List Snappy.Elem) :
    Snappy.serialize (e :: es) = Snappy.emitElem e ++ Snappy.serialize es := by
  simp [Snappy.serialize]

theorem emitElem_length_pos (e : Snappy.Elem) : 1 ≤ (Snappy.emitElem e).length := by
  cases e with
  | lit bs =>
      simp only [Snappy.emitElem]
      split_ifs <;> simp
  | copy off len =>
      simp only [Snappy.emitElem]
      split_ifs <;> simp

theorem decode_lit_ext_step (n fuel e : Nat) (he1 : 1 ≤ e) (he4 : e ≤ 4)
    (bs tail out : List Byte) (h1 : 1 ≤ bs.length) (hx : bs.length - 1 < 256 ^ e)
    (h3 : out.length + bs.length ≤ n) :
    Snappy.decodeElems n (fuel + 1)
        (mkByte ((59 + e) * 4) :: (Snappy.leBytes e (bs.length - 1) ++ (bs ++ tail))) out
      = Snappy.decodeElems n fuel tail (out ++ bs) := by
  have htag : (mkByte ((59 + e) * 4)).val = (59 + e) * 4 := mkByte_val _ (by omega)
  have hm4 : (59 + e) * 4 % 4 = 0 := by omega
  have hd4 : (59 + e) * 4 / 4 = 59 + e := by omega
  have hh60 : ¬ (59 + e < 60) := by omega
  have hext : 59 + e - 59 = e := by omega
  have hlen : e ≤ (Snappy.leBytes e (bs.length - 1) ++ (bs ++ tail)).length := by
    simp [leBytes_length]
  have htake : (Snappy.leBytes e (bs.length - 1) ++ (bs ++ tail)).take e
      = Snappy.leBytes e (bs.length - 1) :=
    take_len_append _ _ _ (leBytes_length e _)
  have hdrop : (Snappy.leBytes e (bs.length - 1) ++ (bs ++ tail)).drop e
      = bs ++ tail :=
    drop_len_append _ _ _ (leBytes_length e _)
  have hfl : Snappy.natFromLe (Snappy.leBytes e (bs.length - 1)) + 1 = bs.length := by
    rw [natFromLe_leBytes e _ hx]
    omega
  have hble : bs.length ≤ (bs ++ tail).length := by simp
  have htk : (bs ++ tail).take bs.length = bs := List.take_left bs tail
  have hdk : (bs ++ tail).drop bs.length = tail := List.drop_left bs tail
  rw [Snappy.decodeElems]
  simp only [htag, hm4, hd4, hh60, hext, if_pos, if_neg, reduceIte, htake, hdrop,
    hfl, hlen, hble, h3, and_true, true_and]
  rw [htk, hdk]

theorem pow2_256 : (256 : Nat) ^ 2 = 65536 := by norm_num

theorem pow3_256 : (256 : Nat) ^ 3 = 16777216 := by norm_num

theorem pow4_256 : (256 : Nat) ^ 4 = 4294967296 := by norm_num

theorem decode_lit_short_step (n fuel : Nat) (bs tail out : List Byte)
    (h1 : 1 ≤ bs.length) (hA : bs.length ≤ 60) (h3 : out.length + bs.length ≤ n) :
    Snappy.decodeElems n (fuel + 1) (mkByte ((bs.length - 1) * 4) :: (bs ++ tail)) out
      = Snappy.decodeElems n fuel tail (out ++ bs) := by
  have htag : (mkByte ((bs.length - 1) * 4)).val = (bs.length - 1) * 4 :=
    mkByte_val _ (by omega)
  have hm4 : (bs.length - 1) * 4 % 4 = 0 := by omega
  have hd4 : (bs.length - 1) * 4 / 4 = bs.length - 1 := by omega
  have hh60 : bs.length - 1 < 60 := by omega
  have hplus : bs.length - 1 + 1 = bs.length := by omega
  have hble : bs.length ≤ (bs ++ tail).length := by simp
  have htk : (bs ++ tail).take bs.length = bs := List.take_left bs tail
  have hdk : (bs ++ tail).drop bs.length = tail := List.drop_left bs tail
  rw [Snappy.decodeElems]
  simp only [htag, hm4, hd4, hh60, hplus, if_pos, if_neg, reduceIte,
    List.drop_zero, Nat.zero_le, hble, h3, and_true, true_and]
  rw [htk, hdk]

theorem decode_lit_step (n fuel : Nat) (bs tail out : List Byte)
    (h1 : 1 ≤ bs.length) (h2 : bs.length ≤ 0xFFFFFFFF)
    (h3 : out.length + bs.length ≤ n) :
    Snappy.decodeElems n (fuel + 1) (Snappy.emitElem (.lit bs) ++ tail) out
      = Snappy.decodeElems n fuel tail (out ++ bs) := by
  by_cases hA : bs.length ≤ 60
  · have he : Snappy.emitElem (.lit bs) ++ tail
        = mkByte ((bs.length - 1) * 4) :: (bs ++ tail) := by
      simp [Snappy.emitElem, hA]
    rw [he]
    exact decode_lit_short_step n fuel bs tail out h1 hA h3
  · by_cases hB : bs.length ≤ 256
    · have he : Snappy.emitElem (.lit bs) ++ tail
          = mkByte ((59 + 1) * 4) :: (Snappy.leBytes 1 (bs.length - 1) ++ (bs ++ tail)) := by
        simp [Snappy.emitElem, hA, hB]
      rw [he]
      exact decode_lit_ext_step n fuel 1 (by omega) (by omega) bs tail out h1
        (by rw [pow_one]; omega) h3
    · by_cases hC : bs.length ≤ 65536
      · have he : Snappy.emitElem (.lit bs) ++ tail
            = mkByte ((59 + 2) * 4) :: (Snappy.leBytes 2 (bs.length - 1) ++ (bs ++ tail)) := by
          simp [Snappy.emitElem, hA, hB, hC]
        rw [he]
        exact decode_lit_ext_step n fuel 2 (by omega) (by omega) bs tail out h1
          (by rw [pow2_256]; omega) h3
      · by_cases hD : bs.length ≤ 16777216
        · have he : Snappy.emitElem (.lit bs) ++ tail
              = mkByte ((59 + 3) * 4) :: (Snappy.leBytes 3 (bs.length - 1) ++ (bs ++ tail)) := by
            simp [Snappy.emitElem, hA, hB, hC, hD]
          rw [he]
          exact decode_lit_ext_step n fuel 3 (by omega) (by omega) bs tail out h1
            (by rw [pow3_256]; omega) h3
        · have he : Snappy.emitElem (.lit bs) ++ tail
              = mkByte ((59 + 4) * 4) :: (Snappy.leBytes 4 (bs.length - 1) ++ (bs ++ tail)) := by
            simp [Snappy.emitElem, hA, hB, hC, hD]
          rw [he]
          exact decode_lit_ext_step n fuel 4 (by omega) (by omega) bs tail out h1
            (by rw [pow4_256]; omega) h3

theorem decode_copy2_step (n fuel off len : Nat) (tail out : List Byte)
    (hl1 : 1 ≤ len) (hl64 : len ≤ 64) (ho1 : 1 ≤ off) (ho : off < 65536)
    (hout : off ≤ out.length) (hn : out.length + len ≤ n) :
    Snappy.decodeElems n (fuel + 1)
        (mkByte ((len - 1) * 4 + 2) :: (Snappy.leBytes 2 off ++ tail)) out
      = Snappy.decodeElems n fuel tail (Snappy.copyBack out off len) := by
  have htag : (mkByte ((len - 1) * 4 + 2)).val = (len - 1) * 4 + 2 :=
    mkByte_val _ (by omega)
  have hm0 : ¬ ((len - 1) * 4 + 2) % 4 = 0 := by omega
  have hm1 : ¬ ((len - 1) * 4 + 2) % 4 = 1 := by omega
  have hm2 : ((len - 1) * 4 + 2) % 4 = 2 := by omega
  have hd4 : ((len - 1) * 4 + 2) / 4 = len - 1 := by omega
  have hplus : len - 1 + 1 = len := by omega
  have hlen2 : 2 ≤ (Snappy.leBytes 2 off ++ tail).length := by
    simp [leBytes_length]
  have htake : (Snappy.leBytes 2 off ++ tail).take 2 = Snappy.leBytes 2 off :=
    take_len_append _ _ _ (leBytes_length 2 off)
  have hdrop : (Snappy.leBytes 2 off ++ tail).drop 2 = tail :=
    drop_len_append _ _ _ (leBytes_length 2 off)
  have hfl : Snappy.natFromLe (Snappy.leBytes 2 off) = off :=
    natFromLe_leBytes 2 off (by rw [pow2_256]; omega)
  rw [Snappy.decodeElems]
  simp [htag, hm0, hm1, hm2, hd4, hplus, htake, hdrop, hfl, hlen2, ho1, hout,
    hn, leBytes_length]

theorem decode_copy4_step (n fuel off len : Nat) (tail out : List Byte)
    (hl1 : 1 ≤ len) (hl64 : len ≤ 64) (ho1 : 1 ≤ off) (ho : off ≤ 0xFFFFFFFF)
    (hout : off ≤ out.length) (hn : out.length + len ≤ n) :
    Snappy.decodeElems n (fuel + 1)
        (mkByte ((len - 1) * 4 + 3) :: (Snappy.leBytes 4 off ++ tail)) out
      = Snappy.decodeElems n fuel tail (Snappy.copyBack out off len) := by
  have htag : (mkByte ((len - 1) * 4 + 3)).val = (len - 1) * 4 + 3 :=
    mkByte_val _ (by omega)
  have hm0 : ¬ ((len - 1) * 4 + 3) % 4 = 0 := by omega
  have hm1 : ¬ ((len - 1) * 4 + 3) % 4 = 1 := by omega
  have hm2 : ¬ ((len - 1) * 4 + 3) % 4 = 2 := by omega
  have hd4 : ((len - 1) * 4 + 3) / 4 = len - 1 := by omega
  have hplus : len - 1 + 1 = len := by omega
  have hlen4 : 4 ≤ (Snappy.leBytes 4 off ++ tail).length := by
    simp [leBytes_length]
  have htake : (Snappy.leBytes 4 off ++ tail).take 4 = Snappy.leBytes 4 off :=
    take_len_append _ _ _ (leBytes_length 4 off)
  have hdrop : (Snappy.leBytes 4 off ++ tail).drop 4 = tail :=
    drop_len_append _ _ _ (leBytes_length 4 off)
  have hfl : Snappy.natFromLe (Snappy.leBytes 4 off) = off :=
    natFromLe_leBytes 4 off
      (by rw [pow4_256]; omega)
  rw [Snappy.decodeElems]
  simp [htag, hm0, hm1, hm2, hd4, hplus, htake, hdrop, hfl, hlen4, ho1, hout,
    hn, leBytes_length]

theorem decode_copy_step (n fuel off len : Nat) (tail out : List Byte)
    (hl1 : 1 ≤ len) (hl64 : len ≤ 64) (ho1 : 1 ≤ off) (ho : off ≤ 0xFFFFFFFF)
    (hout : off ≤ out.length) (hn : out.length + len ≤ n) :
    Snappy.decodeElems n (fuel + 1) (Snappy.emitElem (.copy off len) ++ tail) out
      = Snappy.decodeElems n fuel tail (Snappy.copyBack out off len) := by
  by_cases hoff : off < 65536
  · have he : Snappy.emitElem (.copy off len) ++ tail
        = mkByte ((len - 1) * 4 + 2) :: (Snappy.leBytes 2 off ++ tail) := by
      simp [Snappy.emitElem, hoff]
    rw [he]
    exact decode_copy2_step n fuel off len tail out hl1 hl64 ho1 hoff hout hn
  · have he : Snappy.emitElem (.copy off len) ++ tail
        = mkByte ((len - 1) * 4 + 3) :: (Snappy.leBytes 4 off ++ tail) := by
      simp [Snappy.emitElem, hoff]
    rw [he]
    exact decode_copy4_step n fuel off len tail out hl1 hl64 ho1 ho hout hn

/-! ## Copy execution -/

theorem getD_cons_succ (b : Byte) (t : List Byte) (p : Nat) :
    (b :: t).getD (p + 1) 0 = t.getD p 0 := by
  simp [List.getD]

theorem take_succ_getD (l : List Byte) (p : Nat) (h : p < l.length) :
    l.take (p + 1) = l.take p ++ [l.getD p 0] := by
  induction l generalizing p with
  | nil => simp at h
  | cons b t ih =>
      cases p with
      | zero => simp
      | succ p =>
          simp only [List.take_succ_cons, getD_cons_succ, List.cons_append]
          rw [ih p (by simpa using h)]

theorem getD_take (l : List Byte) (k i : Nat) (h : i < k) :
    (l.take k).getD i 0 = l.getD i 0 := by
  induction l generalizing k i with
  | nil => simp
  | cons b t ih =>
      cases k with
      | zero => omega
      | succ k =>
          cases i with
          | zero => simp
          | succ i =>
              simp only [List.take_succ_cons, getD_cons_succ]
              exact ih k i (by omega)

theorem take_length_eq (l : List Byte) (p : Nat) (h : p ≤ l.length) :
    (l.take p).length = p := by
  simp [List.length_take]
  omega

theorem copyBack_take (b : List Byte) :
    ∀ (len pos off : Nat), 1 ≤ off → off ≤ pos → pos + len ≤ b.length →
      (∀ i, i < len → Snappy.byteAt b (pos - off + i) = Snappy.byteAt b (pos + i)) →
      Snappy.copyBack (b.take pos) off len = b.take (pos + len) := by
  intro len
  induction len with
  | zero => intro pos off _ _ _ _; rfl
  | succ len ih =>
      intro pos off h1 h2 h3 hmatch
      have hpos : pos < b.length := by omega
      have hlen_take : (b.take pos).length = pos := take_length_eq b pos (by omega)
      have hgetD : (b.take pos).getD (pos - off) 0 = b.getD (pos - off) 0 :=
        getD_take b pos (pos - off) (by omega)
      have hbyte : b.getD (pos - off) 0 = b.getD pos 0 := by
        have hm := hmatch 0 (by omega)
        simp only [Nat.add_zero, Snappy.byteAt] at hm
        exact Fin.ext hm
      have hstep : Snappy.copyBack (b.take pos) off (len + 1)
          = Snappy.copyBack (b.take pos ++ [b.getD pos 0]) off len := by
        rw [Snappy.copyBack, hlen_take, hgetD, hbyte]
      rw [hstep, ← take_succ_getD b pos hpos]
      have hshift : ∀ i, i < len →
          Snappy.byteAt b (pos + 1 - off + i) = Snappy.byteAt b (pos + 1 + i) := by
        intro i hi
        have hidx1 : pos + 1 - off + i = pos - off + (i + 1) := by omega
        have hidx2 : pos + 1 + i = pos + (i + 1) := by omega
        rw [hidx1, hidx2]
        exact hmatch (i + 1) (by omega)
      have := ih (pos + 1) off h1 (by omega) (by omega) hshift
      rw [this]
      have : pos + 1 + len = pos + (len + 1) := by omega
      rw [this]

/-! ## Decoding a well-formed serialized element sequence -/

theorem decode_serialize (b : List Byte) (hb : b.length ≤ 0xFFFFFFFF) :
    ∀ (es : List Snappy.Elem) (pos fuel : Nat), Snappy.Good b pos es →
      (Snappy.serialize es).length < fuel →
      Snappy.decodeElems b.length fuel (Snappy.serialize es) (b.take pos)
        = .ok b := by
  intro es
  induction es with
  | nil =>
      intro pos fuel hg hf
      have hpos : pos = b.length := hg
      cases fuel with
      | zero => omega
      | succ fuel =>
          show Snappy.decodeElems b.length (fuel + 1) [] (b.take pos) = .ok b
          rw [Snappy.decodeElems, hpos]
          simp [List.take_length]
  | cons e es ih =>
      intro pos fuel hg hf
      cases e with
      | lit bs =>
          obtain ⟨h1, h2, hbs, hg'⟩ := hg
          cases fuel with
          | zero => omega
          | succ fuel =>
              rw [serialize_cons] at hf ⊢
              have hout3 : (b.take pos).length + bs.length ≤ b.length := by
                rw [take_length_eq b pos (by omega)]
                omega
              rw [decode_lit_step b.length fuel bs (Snappy.serialize es)
                (b.take pos) h1 (by omega) hout3]
              have hcomb : b.take pos ++ bs = b.take (pos + bs.length) := by
                conv_lhs => rw [hbs]
                exact (List.take_add b pos bs.length).symm
              rw [hcomb]
              apply ih (pos + bs.length) fuel hg'
              have hpe := emitElem_length_pos (Snappy.Elem.lit bs)
              simp only [List.length_append] at hf
              omega
      | copy off len =>
          obtain ⟨hl1, hl64, ho1, hop, hple, hmatch, hg'⟩ := hg
          cases fuel with
          | zero => omega
          | succ fuel =>
              rw [serialize_cons] at hf ⊢
              have htl : (b.take pos).length = pos := take_length_eq b pos (by omega)
              rw [decode_copy_step b.length fuel off len (Snappy.serialize es)
                (b.take pos) hl1 hl64 ho1 (by omega) (by omega) (by omega)]
              rw [copyBack_take b len pos off ho1 hop hple hmatch]
              apply ih (pos + len) fuel hg'
              have hpe := emitElem_length_pos (Snappy.Elem.copy off len)
              simp only [List.length_append] at hf
              omega

/-! ## Encoder invariants -/

theorem byteAt_lt (b : List Byte) (i : Nat) : Snappy.byteAt b i < 256 :=
  (b.getD i 0).isLt

theorem extendMatch_sound (b : List Byte) :
    ∀ (fuel s t i : Nat), i < Snappy.extendMatch fuel b s t →
      Snappy.byteAt b (s + i) = Snappy.byteAt b (t + i) := by
  intro fuel
  induction fuel with
  | zero =>
      intro s t i hi
      rw [Snappy.extendMatch] at hi
      omega
  | succ fuel ih =>
      intro s t i hi
      rw [Snappy.extendMatch] at hi
      by_cases hc : t < b.length ∧ Snappy.byteAt b s = Snappy.byteAt b t
      · rw [if_pos hc] at hi
        cases i with
        | zero => simpa using hc.2
        | succ i =>
            have hrec := ih (s + 1) (t + 1) i (by omega)
            have h1 : s + (i + 1) = s + 1 + i := by omega
            have h2 : t + (i + 1) = t + 1 + i := by omega
            rw [h1, h2]
            exact hrec
      · rw [if_neg hc] at hi
        omega

theorem extendMatch_le (b : List Byte) :
    ∀ (fuel s t : Nat), Snappy.extendMatch fuel b s t ≤ fuel := by
  intro fuel
  induction fuel with
  | zero => intro s t; rw [Snappy.extendMatch]
  | succ fuel ih =>
      intro s t
      rw [Snappy.extendMatch]
      by_cases hc : t < b.length ∧ Snappy.byteAt b s = Snappy.byteAt b t
      · rw [if_pos hc]
        have := ih (s + 1) (t + 1)
        omega
      · rw [if_neg hc]
        omega

theorem fingerprint_inj (b : List Byte) (c p : Nat)
    (h : Snappy.fingerprint b c = Snappy.fingerprint b p) :
    ∀ i, i < 4 → Snappy.byteAt b (c + i) = Snappy.byteAt b (p + i) := by
  have hc0 := byteAt_lt b c
  have hc1 := byteAt_lt b (c + 1)
  have hc2 := byteAt_lt b (c + 2)
  have hc3 := byteAt_lt b (c + 3)
  have hp0 := byteAt_lt b p
  have hp1 := byteAt_lt b (p + 1)
  have hp2 := byteAt_lt b (p + 2)
  have hp3 := byteAt_lt b (p + 3)
  unfold Snappy.fingerprint at h
  intro i hi
  interval_cases i <;> [skip; skip; skip; skip] <;> first
    | (simp only [Nat.add_zero]; omega)
    | omega

theorem emitCopies_good (b : List Byte) (off : Nat) (h3 : 1 ≤ off) :
    ∀ (fuel len pos : Nat) (K : List Snappy.Elem), len ≤ fuel → off ≤ pos →
      pos + len ≤ b.length →
      (∀ i, i < len → Snappy.byteAt b (pos - off + i) = Snappy.byteAt b (pos + i)) →
      Snappy.Good b (pos + len) K →
      Snappy.Good b pos (Snappy.emitCopies fuel off len ++ K) := by
  intro fuel
  induction fuel with
  | zero =>
      intro len pos K hlf _ _ _ hK
      have h0 : len = 0 := by omega
      subst h0
      simpa [Snappy.emitCopies] using hK
  | succ fuel ih =>
      intro len pos K hlf hop hple hmatch hK
      by_cases h0 : len = 0
      · subst h0
        simpa [Snappy.emitCopies] using hK
      · by_cases h64 : len ≤ 64
        · have he : Snappy.emitCopies (fuel + 1) off len = [.copy off len] := by
            simp [Snappy.emitCopies, h0, h64]
          rw [he]
          show Snappy.Good b pos (.copy off len :: K)
          exact ⟨by omega, h64, h3, hop, hple, hmatch, hK⟩
        · have he : Snappy.emitCopies (fuel + 1) off len
              = .copy off 64 :: Snappy.emitCopies fuel off (len - 64) := by
            simp [Snappy.emitCopies, h0, h64]
          rw [he]
          show Snappy.Good b pos
            (.copy off 64 :: (Snappy.emitCopies fuel off (len - 64) ++ K))
          refine ⟨by omega, by omega, h3, hop, by omega, ?_, ?_⟩
          · intro i hi
            exact hmatch i (by omega)
          · have hK' : Snappy.Good b (pos + 64 + (len - 64)) K := by
              have he2 : pos + 64 + (len - 64) = pos + len := by omega
              rw [he2]
              exact hK
            have hm' : ∀ i, i < len - 64 →
                Snappy.byteAt b (pos + 64 - off + i) = Snappy.byteAt b (pos + 64 + i) := by
              intro i hi
              have hidx1 : pos + 64 - off + i = pos - off + (64 + i) := by omega
              have hidx2 : pos + 64 + i = pos + (64 + i) := by omega
              rw [hidx1, hidx2]
              exact hmatch (64 + i) (by omega)
            exact ih (len - 64) (pos + 64) K (by omega) (by omega) (by omega) hm' hK'

theorem midLit_good (b : List Byte) (i j : Nat) (hij : i ≤ j) (hj : j ≤ b.length)
    (K : List Snappy.Elem) (hK : Snappy.Good b j K) :
    Snappy.Good b i (Snappy.midLit b i j ++ K) := by
  by_cases h : i < j
  · have he : Snappy.midLit b i j = [.lit ((b.drop i).take (j - i))] := by
      simp [Snappy.midLit, h]
    rw [he]
    show Snappy.Good b i (.lit ((b.drop i).take (j - i)) :: K)
    have hlen : ((b.drop i).take (j - i)).length = j - i := by
      simp [List.length_take, List.length_drop]
      omega
    refine ⟨?_, ?_, ?_, ?_⟩
    · rw [hlen]; omega
    · rw [hlen]; omega
    · rw [hlen]
    · rw [hlen]
      have he2 : i + (j - i) = j := by omega
      rw [he2]
      exact hK
  · have he : i = j := by omega
    subst he
    simpa [Snappy.midLit] using hK

theorem encLoop_good (b : List Byte) :
    ∀ (fuel : Nat) (table : Nat → Nat) (pos litStart : Nat),
      litStart ≤ pos → pos ≤ b.length → b.length ≤ pos + fuel →
      Snappy.Good b litStart (Snappy.encLoop fuel b table pos litStart) := by
  intro fuel
  induction fuel with
  | zero =>
      intro table pos litStart h1 h2 h3
      rw [Snappy.encLoop]
      have hfin := midLit_good b litStart b.length (by omega) (le_refl _) []
        (show Snappy.Good b b.length [] from rfl)
      simpa using hfin
  | succ fuel ih =>
      intro table pos litStart h1 h2 h3
      rw [Snappy.encLoop]
      by_cases hend : pos + 4 > b.length
      · rw [if_pos hend]
        have hfin := midLit_good b litStart b.length (by omega) (le_refl _) []
          (show Snappy.Good b b.length [] from rfl)
        simpa using hfin
      · rw [if_neg hend]
        dsimp only
        by_cases hc : table (Snappy.hashFp (Snappy.fingerprint b pos)) < pos
            ∧ Snappy.fingerprint b (table (Snappy.hashFp (Snappy.fingerprint b pos)))
              = Snappy.fingerprint b pos
        · rw [if_pos hc]
          obtain ⟨hclt, hcfp⟩ := hc
          have hext := extendMatch_le b (b.length - (pos + 4))
            (table (Snappy.hashFp (Snappy.fingerprint b pos)) + 4) (pos + 4)
          rw [List.append_assoc]
          apply midLit_good b litStart pos h1 (by omega)
          apply emitCopies_good b
            (pos - table (Snappy.hashFp (Snappy.fingerprint b pos))) (by omega)
          · exact le_refl _
          · omega
          · omega
          · intro i hi
            have hidx : pos - (pos - table (Snappy.hashFp (Snappy.fingerprint b pos))) + i
                = table (Snappy.hashFp (Snappy.fingerprint b pos)) + i := by omega
            rw [hidx]
            by_cases hi4 : i < 4
            · exact fingerprint_inj b _ pos hcfp i hi4
            · have hs := extendMatch_sound b (b.length - (pos + 4))
                (table (Snappy.hashFp (Snappy.fingerprint b pos)) + 4) (pos + 4)
                (i - 4) (by omega)
              have e1 : table (Snappy.hashFp (Snappy.fingerprint b pos)) + 4 + (i - 4)
                  = table (Snappy.hashFp (Snappy.fingerprint b pos)) + i := by omega
              have e2 : pos + 4 + (i - 4) = pos + i := by omega
              rw [e1, e2] at hs
              exact hs
          · exact ih _ _ _ (le_refl _) (by omega) (by omega)
        · rw [if_neg hc]
          exact ih _ (pos + 1) litStart (by omega) (by omega) (by omega)

theorem decompress_header (buf : List Byte) (v : Nat) (rest : List Byte)
    (h : Snappy.readVarint buf = .ok (v, rest)) (hv : ¬ v > 0xFFFFFFFF) :
    Snappy.decompress buf = Snappy.decodeElems v (rest.length + 1) rest [] := by
  unfold Snappy.decompress
  rw [h]
  simp [hv]

/-! ## Claim theorem: round-trip -/

/-- C1: decompressing the result of compressing any byte sequence that the
format can represent (length at most 2^32 - 1, the format's ceiling; the
empty sequence included) yields exactly the original bytes. -/
theorem compress_decompress_roundtrip :
    ∀ b : List Byte, b.length ≤ 0xFFFFFFFF →
      Snappy.decompress (Snappy.compress b) = .ok b := by
  intro b hb
  have hser := readVarint_writeVarint b.length (by omega)
    (Snappy.serialize (Snappy.encLoop (b.length + 1) b (fun _ => 0) 0 0))
  have hhead : Snappy.decompress (Snappy.compress b)
      = Snappy.decodeElems b.length
          ((Snappy.serialize (Snappy.encLoop (b.length + 1) b (fun _ => 0) 0 0)).length + 1)
          (Snappy.serialize (Snappy.encLoop (b.length + 1) b (fun _ => 0) 0 0)) [] := by
    unfold Snappy.compress
    exact decompress_header _ _ _ hser (by omega)
  rw [hhead]
  have hgood : Snappy.Good b 0 (Snappy.encLoop (b.length + 1) b (fun _ => 0) 0 0) :=
    encLoop_good b (b.length + 1) (fun _ => 0) 0 0 (le_refl _) (Nat.zero_le _)
      (by omega)
  have hdec := decode_serialize b hb
    (Snappy.encLoop (b.length + 1) b (fun _ => 0) 0 0) 0
    ((Snappy.serialize (Snappy.encLoop (b.length + 1) b (fun _ => 0) 0 0)).length + 1)
    hgood (by omega)
  rw [List.take_zero] at hdec
  exact hdec

/-- Witness for C1: concrete round trips of the empty input and a three-byte
input. -/
theorem compress_decompress_roundtrip_witness :
    (([] : List Byte).length ≤ 0xFFFFFFFF
      ∧ Snappy.decompress (Snappy.compress ([] : List Byte)) = .ok ([] : List Byte))
    ∧ (([(1 : Byte), 2, 3] : List Byte).length ≤ 0xFFFFFFFF
      ∧ Snappy.decompress (Snappy.compress [(1 : Byte), 2, 3])
          = .ok [(1 : Byte), 2, 3]) :=
  ⟨⟨by decide, compress_decompress_roundtrip [] (by decide)⟩,
    ⟨by decide, compress_decompress_roundtrip [(1 : Byte), 2, 3] (by decide)⟩⟩
